import Mathlib

/-!
Verification development for the i2pdoc2pdf repository.

The repository is a small Go program (main.go plus two earlier drafts) that
downloads the I2P documentation tree, discovers the HTML files under a local
root, sanitizes each document, aggregates them (table of contents followed by
one chapter per document) into one combined HTML file, and hands that file to
wkhtmltopdf.

Strings are modelled as lists of characters (LChar).  Each Go standard library
function used by the program is embedded with its real semantics on the shapes
of data the program produces; in particular filepath.Join and filepath.Dir
call Clean on their results, which removes a leading "./" component.  That
behaviour is modelled by cleanLite, which performs exactly the part of Clean
exercised by this program (paths made of slash-free non-dot components,
optionally prefixed by "./").
-/

abbrev LChar := List Char

/-- Model of strings.TrimPrefix from Go: if pre is a prefix of s, drop it,
otherwise return s unchanged. -/
def trimPrefixL (s pre : LChar) : LChar :=
  if pre.isPrefixOf s then s.drop pre.length else s

/-- Model of strings.TrimSuffix from Go: if suf is a suffix of s, drop it,
otherwise return s unchanged. -/
def trimSuffixL (s suf : LChar) : LChar :=
  if suf.isSuffixOf s then s.take (s.length - suf.length) else s

/-- Model of strings.ReplaceAll(s, "/", " → ") as used by the section namer:
every slash character is replaced by the three characters of the visual
delimiter.  Because the pattern is a single character, ReplaceAll is exactly
this character-wise flat map. -/
def replaceSlashes (s : LChar) : LChar :=
  s.flatMap (fun c => if c = '/' then " → ".data else [c])

/-- Section title derivation from src/main.go lines 263-267 (and identically
lines 300-304, and src/unnamed/part_001 lines 281-285): strip the input root
prefix, strip a leading "/", strip a trailing "/index.html", strip a trailing
".html", then replace the remaining slashes by the visual delimiter. -/
def sectionNameOf (inputDir p : LChar) : LChar :=
  replaceSlashes
    (trimSuffixL
      (trimSuffixL
        (trimPrefixL (trimPrefixL p inputDir) "/".data)
        "/index.html".data)
      ".html".data)

/-- The input root the program passes to both the discoverer and the section
namer: inputDir := "./docs" (src/main.go line 206, src/unnamed/part_001
line 224). -/
def docsInputDir : LChar := "./docs".data

-- Helper lemmas about the string models.

theorem mem_of_isPrefixOf_true :
    ∀ (l s : LChar), l.isPrefixOf s = true → ∀ c ∈ l, c ∈ s := by
  intro l
  induction l with
  | nil => intro s _ c hc; simp at hc
  | cons a as ih =>
      intro s h c hc
      cases s with
      | nil => simp [List.isPrefixOf] at h
      | cons b bs =>
          simp only [List.isPrefixOf, Bool.and_eq_true, beq_iff_eq] at h
          rcases List.mem_cons.mp hc with hca | hca
          · exact List.mem_cons.mpr (Or.inl (hca.trans h.1))
          · exact List.mem_cons.mpr (Or.inr (ih bs h.2 c hca))

theorem mem_of_isSuffixOf_true (l s : LChar) (h : l.isSuffixOf s = true)
    (c : Char) (hc : c ∈ l) : c ∈ s := by
  have h2 := mem_of_isPrefixOf_true l.reverse s.reverse h c (List.mem_reverse.mpr hc)
  exact List.mem_reverse.mp h2

theorem trimPrefixL_eq_self (s pre : LChar) (c : Char) (hc : c ∈ pre)
    (hs : c ∉ s) : trimPrefixL s pre = s := by
  unfold trimPrefixL
  by_cases h : pre.isPrefixOf s = true
  · exact absurd (mem_of_isPrefixOf_true pre s h c hc) hs
  · simp [h]

theorem trimSuffixL_eq_self (s suf : LChar) (c : Char) (hc : c ∈ suf)
    (hs : c ∉ s) : trimSuffixL s suf = s := by
  unfold trimSuffixL
  by_cases h : suf.isSuffixOf s = true
  · exact absurd (mem_of_isSuffixOf_true suf s h c hc) hs
  · simp [h]

theorem slash_not_mem_replaceSlashes (s : LChar) : '/' ∉ replaceSlashes s := by
  induction s with
  | nil => simp [replaceSlashes]
  | cons a as ih =>
      simp only [replaceSlashes, List.flatMap_cons] at *
      intro hmem
      rcases List.mem_append.mp hmem with h1 | h1
      · by_cases ha : a = '/'
        · rw [if_pos ha] at h1
          have : '/' ∈ " → ".data := h1
          simp [String.data] at this
        · rw [if_neg ha] at h1
          simp at h1
          exact ha h1.symm
      · exact ih h1

theorem replaceSlashes_eq_self (s : LChar) (h : '/' ∉ s) :
    replaceSlashes s = s := by
  induction s with
  | nil => simp [replaceSlashes]
  | cons a as ih =>
      have ha : a ≠ '/' := fun hc => h (hc ▸ List.mem_cons_self a as)
      have has : '/' ∉ as := fun hc => h (List.mem_cons.mpr (Or.inr hc))
      simp only [replaceSlashes, List.flatMap_cons, if_neg ha]
      simpa [replaceSlashes] using ih has

-- Claim C5: idempotence of the section title derivation.

/-- Claim C5 counterexample: the derivation is not idempotent on every input
path string.  For the path "x.html.html" the first derivation yields
"x.html" (only one ".html" suffix is stripped), and deriving again strips the
remaining ".html", yielding "x". -/
theorem c5_counterexample_double_html_extension :
    sectionNameOf docsInputDir (sectionNameOf docsInputDir "x.html.html".data)
      ≠ sectionNameOf docsInputDir "x.html.html".data := by decide

/-- Claim C5 amended: the derivation is idempotent on every input path whose
derived title does not itself end in ".html" (titles ending in ".html" arise
only from paths with a doubled extension such as "x.html.html").  The derived
title contains no slash, so the input-root prefix, the leading separator and
the "/index.html" suffix can never reappear; only the ".html" suffix can. -/
theorem c5_title_derivation_idempotent_amended (p : LChar)
    (h : ".html".data.isSuffixOf (sectionNameOf docsInputDir p) = false) :
    sectionNameOf docsInputDir (sectionNameOf docsInputDir p)
      = sectionNameOf docsInputDir p := by
  have hslash : '/' ∉ sectionNameOf docsInputDir p := by
    unfold sectionNameOf
    exact slash_not_mem_replaceSlashes _
  conv_lhs => rw [sectionNameOf]
  rw [trimPrefixL_eq_self _ docsInputDir '/' (by decide) hslash]
  rw [trimPrefixL_eq_self _ "/".data '/' (by decide) hslash]
  rw [trimSuffixL_eq_self _ "/index.html".data '/' (by decide) hslash]
  rw [show trimSuffixL (sectionNameOf docsInputDir p) ".html".data
        = sectionNameOf docsInputDir p by unfold trimSuffixL; simp [h]]
  exact replaceSlashes_eq_self _ hslash

/-- Claim C5 witness: the amended idempotence theorem applied to the concrete
path "a/page.html", whose derived title is "a → page". -/
theorem c5_title_derivation_idempotent_amended_witness :
    ".html".data.isSuffixOf (sectionNameOf docsInputDir "a/page.html".data) = false
      ∧ sectionNameOf docsInputDir (sectionNameOf docsInputDir "a/page.html".data)
          = sectionNameOf docsInputDir "a/page.html".data :=
  ⟨by decide, c5_title_derivation_idempotent_amended "a/page.html".data (by decide)⟩

-- Tree discovery (findHTMLFiles, src/main.go lines 21-54 and identically
-- src/unnamed/part_001 lines 18-51).

/-- Partial model of path cleaning from the Go path/filepath package: both
filepath.Join and filepath.Dir run Clean on their result.  On the path shapes
this program produces (slash-free, non-empty, non-dot components, possibly
prefixed by "./" at the call site), the only effect of Clean is to remove a
leading "./". -/
def cleanLite (p : LChar) : LChar :=
  if "./".data.isPrefixOf p then p.drop 2 else p

/-- Model of filepath.Join(d, n) for a single child name n: concatenate with a
slash separator and clean the result. -/
def joinPath (d n : LChar) : LChar := cleanLite (d ++ '/' :: n)

/-- Model of filepath.Base: the part of the path after the last slash (for the
slash-free paths handed to it, the whole path). -/
def baseOf (p : LChar) : LChar := (p.reverse.takeWhile (fun c => c ≠ '/')).reverse

/-- Model of filepath.Dir: everything before the last slash, cleaned; "." when
the path has no slash. -/
def dirOf (p : LChar) : LChar :=
  if p.contains '/' then cleanLite ((p.reverse.dropWhile (fun c => c ≠ '/')).drop 1).reverse
  else ".".data

/-- Case-insensitive ".html" extension check from the file branch of
findHTMLFiles: strings.HasSuffix(strings.ToLower(path), ".html").  Char.toLower
lowers the ASCII range, which is the behaviour strings.ToLower exhibits on the
ASCII paths this program handles. -/
def hasHtmlSuffixLower (p : LChar) : Bool :=
  ".html".data.isSuffixOf (p.map Char.toLower)

/-- A directory tree as seen by filepath.Walk: a node is a plain file or a
directory with an ordered list of children (filepath.Walk visits children in
lexically sorted order; the model takes the order as given by the list). -/
inductive FSNode where
  | file : LChar → FSNode
  | dir : LChar → List FSNode → FSNode

/-- The entry name of a node. -/
def nodeName : FSNode → LChar
  | .file n => n
  | .dir n _ => n

/-- Whether a directory contains an entry named "index.html" (the os.Stat check
in the directory branch of findHTMLFiles succeeds exactly when such an entry
exists, regardless of its kind). -/
def hasIndexEntry (children : List FSNode) : Bool :=
  children.any (fun c => nodeName c == "index.html".data)

mutual
/-- One filepath.Walk callback invocation of findHTMLFiles at a node reached
under the given path, followed by the walk of its children.  Directory branch:
if the directory contains index.html, append joined-path/index.html.  File
branch: append the path when it has a (lowercased) ".html" suffix and either
its filepath.Dir equals baseDir or its filepath.Base is not "index.html". -/
def visitNode (baseDir path : LChar) : FSNode → List LChar
  | .file _ =>
      if hasHtmlSuffixLower path
          && (dirOf path == baseDir || !(baseOf path == "index.html".data))
      then [path] else []
  | .dir _ children =>
      (if hasIndexEntry children then [joinPath path "index.html".data] else [])
        ++ visitChildren baseDir path children

/-- The walk of a list of sibling nodes under a parent path: each child is
visited at filepath.Join(parent path, child name). -/
def visitChildren (baseDir path : LChar) : List FSNode → List LChar
  | [] => []
  | c :: cs =>
      visitNode baseDir (joinPath path (nodeName c)) c
        ++ visitChildren baseDir path cs
end

/-- findHTMLFiles(baseDir) over a modelled directory tree rooted at baseDir:
filepath.Walk visits the root under the path string baseDir itself and every
descendant under the cleaned join of its parent path and its name. -/
def findHTMLFiles (baseDir : LChar) (root : FSNode) : List LChar :=
  visitNode baseDir baseDir root

mutual
/-- Well-formedness of a modelled tree, holding for every tree a real
filesystem walk can produce: entry names are non-empty, contain no slash, and
sibling names are pairwise distinct. -/
def wfNode : FSNode → Bool
  | .file n => !n.isEmpty && !n.contains '/'
  | .dir n children =>
      !n.isEmpty && !n.contains '/'
        && (children.map nodeName).Nodup && wfList children

/-- Well-formedness of a list of sibling subtrees. -/
def wfList : List FSNode → Bool
  | [] => true
  | c :: cs => wfNode c && wfList cs
end

-- Claim C4: the concrete discovery-plus-naming scenario.

/-- Claim C4: for the input tree a/index.html, b/page.html, c/index.html under
root X, discovery returns exactly the three document paths in order, and
section-title derivation on them yields the ordered titles "a", "b → page",
"c" (with the arrow delimiter), i.e. three sections in that order. -/
theorem c4_scenario_three_titles :
    findHTMLFiles "X".data
        (.dir "X".data
          [.dir "a".data [.file "index.html".data],
           .dir "b".data [.file "page.html".data],
           .dir "c".data [.file "index.html".data]])
      = ["X/a/index.html".data, "X/b/page.html".data, "X/c/index.html".data]
    ∧ (findHTMLFiles "X".data
        (.dir "X".data
          [.dir "a".data [.file "index.html".data],
           .dir "b".data [.file "page.html".data],
           .dir "c".data [.file "index.html".data]])).map (sectionNameOf "X".data)
      = ["a".data, "b → page".data, "c".data] := by
  constructor <;> decide

-- Path lemmas used to prove that discovery never emits a duplicate.

theorem cleanLite_eq_self (d : LChar) (h : d.head? ≠ some '.') :
    cleanLite d = d := by
  unfold cleanLite
  cases d with
  | nil => simp [List.isPrefixOf]
  | cons b bs =>
      by_cases hb : b = '.'
      · exact absurd (by simp [hb]) h
      · have hb2 : ('.' == b) = false := beq_eq_false_iff_ne.mpr (Ne.symm hb)
        have hcond : ("./".data.isPrefixOf (b :: bs)) = false := by
          simp only [show "./".data = ['.', '/'] from rfl, List.isPrefixOf, hb2,
            Bool.false_and]
        simp [hcond]

theorem head?_append_of_ne_nil (d l : LChar) (h : d ≠ []) :
    (d ++ l).head? = d.head? := by
  cases d with
  | nil => exact absurd rfl h
  | cons a as => simp

theorem joinPath_eq (d n : LChar) (hne : d ≠ []) (hh : d.head? ≠ some '.') :
    joinPath d n = d ++ '/' :: n := by
  unfold joinPath
  apply cleanLite_eq_self
  rw [head?_append_of_ne_nil d _ hne]
  exact hh

theorem takeWhile_append_all (p : Char → Bool) (xs : LChar) (y : Char) (ys : LChar)
    (hall : ∀ x ∈ xs, p x = true) (hy : p y = false) :
    (xs ++ y :: ys).takeWhile p = xs := by
  induction xs with
  | nil => simp [List.takeWhile, hy]
  | cons a as ih =>
      have ha : p a = true := hall a (by simp)
      simp only [List.cons_append, List.takeWhile, ha, List.append_eq]
      rw [ih (fun x hx => hall x (by simp [hx]))]

theorem dropWhile_append_all (p : Char → Bool) (xs : LChar) (y : Char) (ys : LChar)
    (hall : ∀ x ∈ xs, p x = true) (hy : p y = false) :
    (xs ++ y :: ys).dropWhile p = y :: ys := by
  induction xs with
  | nil => simp [List.dropWhile, hy]
  | cons a as ih =>
      have ha : p a = true := hall a (by simp)
      simp only [List.cons_append, List.dropWhile, ha, List.append_eq]
      exact ih (fun x hx => hall x (by simp [hx]))

theorem baseOf_append (d n : LChar) (hn : '/' ∉ n) :
    baseOf (d ++ '/' :: n) = n := by
  unfold baseOf
  have hrev : (d ++ '/' :: n).reverse = n.reverse ++ '/' :: d.reverse := by
    simp
  rw [hrev, takeWhile_append_all _ _ _ _ ?_ (by simp)]
  · simp
  · intro x hx
    have : x ∈ n := List.mem_reverse.mp hx
    simp only [decide_eq_true_eq]
    intro hcx
    exact hn (hcx ▸ this)

theorem dirOf_append (d n : LChar) (hh : d.head? ≠ some '.')
    (hn : '/' ∉ n) : dirOf (d ++ '/' :: n) = d := by
  unfold dirOf
  have hc : (d ++ '/' :: n).contains '/' = true := by
    simp [List.contains]
  rw [if_pos hc]
  have hrev : (d ++ '/' :: n).reverse = n.reverse ++ '/' :: d.reverse := by
    simp
  rw [hrev, dropWhile_append_all _ _ _ _ ?_ (by simp)]
  · simp only [List.drop_succ_cons, List.drop_zero, List.reverse_reverse]
    exact cleanLite_eq_self d hh
  · intro x hx
    have : x ∈ n := List.mem_reverse.mp hx
    simp only [decide_eq_true_eq]
    intro hcx
    exact hn (hcx ▸ this)

/-- A tail that can follow a path component in an emitted path: either nothing
or a slash followed by more components. -/
def SlashTail (s : LChar) : Prop := s = [] ∨ ∃ t, s = '/' :: t

theorem comp_unique (m₁ : LChar) :
    ∀ (m₂ s₁ s₂ : LChar), '/' ∉ m₁ → '/' ∉ m₂ → SlashTail s₁ → SlashTail s₂ →
      m₁ ++ s₁ = m₂ ++ s₂ → m₁ = m₂ ∧ s₁ = s₂ := by
  induction m₁ with
  | nil =>
      intro m₂ s₁ s₂ _ h2 t1 _ heq
      rcases t1 with rfl | ⟨t, rfl⟩
      · rcases List.append_eq_nil.mp heq.symm with ⟨rfl, rfl⟩
        exact ⟨rfl, rfl⟩
      · cases m₂ with
        | nil => simpa using heq
        | cons b bs =>
            exfalso
            have hb : b = '/' := by
              have := congrArg List.head? heq
              simpa using this.symm
            exact h2 (hb ▸ List.mem_cons_self b bs)
  | cons a as ih =>
      intro m₂ s₁ s₂ h1 h2 t1 t2 heq
      cases m₂ with
      | nil =>
          exfalso
          rcases t2 with rfl | ⟨t, rfl⟩
          · simp at heq
          · have hb : a = '/' := by
              have := congrArg List.head? heq
              simpa using this
            exact h1 (hb ▸ List.mem_cons_self a as)
      | cons b bs =>
          simp only [List.cons_append, List.cons.injEq] at heq
          obtain ⟨rfl, heq2⟩ := heq
          have h1a : '/' ∉ as := fun hc => h1 (List.mem_cons.mpr (Or.inr hc))
          have h2a : '/' ∉ bs := fun hc => h2 (List.mem_cons.mpr (Or.inr hc))
          obtain ⟨rfl, rfl⟩ := ih bs s₁ s₂ h1a h2a t1 t2 heq2
          exact ⟨rfl, rfl⟩

-- Structural induction principle for the nested tree type.

theorem fsnode_induction (P : FSNode → Prop)
    (hf : ∀ n, P (FSNode.file n))
    (hd : ∀ n ch, (∀ c ∈ ch, P c) → P (FSNode.dir n ch)) :
    ∀ t, P t := fun t =>
  match t with
  | .file n => hf n
  | .dir n ch => hd n ch (fun c hc =>
      have : sizeOf c < sizeOf (FSNode.dir n ch) := by
        have h1 := List.sizeOf_lt_of_mem hc
        simp only [FSNode.dir.sizeOf_spec]
        omega
      fsnode_induction P hf hd c)
termination_by t => sizeOf t

theorem wfNode_name (c : FSNode) (h : wfNode c = true) :
    nodeName c ≠ [] ∧ '/' ∉ nodeName c := by
  cases c with
  | file n =>
      simp only [wfNode] at h
      simp at h
      constructor <;> simp only [nodeName] <;> tauto
  | dir n ch =>
      simp only [wfNode] at h
      simp at h
      constructor <;> simp only [nodeName] <;> tauto

theorem wfNode_dir_parts (n : LChar) (ch : List FSNode)
    (h : wfNode (.dir n ch) = true) :
    (ch.map nodeName).Nodup ∧ wfList ch = true := by
  simp only [wfNode] at h
  simp at h
  constructor <;> tauto

theorem wfList_mem : ∀ (ch : List FSNode), wfList ch = true →
    ∀ c ∈ ch, wfNode c = true := by
  intro ch
  induction ch with
  | nil => intro _ c hc; simp at hc
  | cons a as ih =>
      intro h c hc
      simp only [wfList, Bool.and_eq_true] at h
      rcases List.mem_cons.mp hc with rfl | hc2
      · tauto
      · exact ih (by tauto) c hc2

/-- The shape of every path emitted by the walk of a node reached under a
given path: a file emits only its own path; a directory emits only paths that
extend its path by a slash, one slash-free component and a component tail. -/
def EmitShape (path : LChar) (t : FSNode) (p : LChar) : Prop :=
  match t with
  | .file _ => p = path
  | .dir _ _ => ∃ m s, '/' ∉ m ∧ SlashTail s ∧ p = path ++ '/' :: (m ++ s)

/-- The induction motive for the no-duplicates theorem: at every clean walk
path (non-empty, not starting with a dot, hence never equal to the "./docs"
base directory string), the emitted list has no duplicates and every emitted
path has the component shape. -/
def VisitOk (t : FSNode) : Prop :=
  wfNode t = true → ∀ path, path ≠ [] → path.head? ≠ some '.' →
    (visitNode docsInputDir path t).Nodup ∧
    ∀ p ∈ visitNode docsInputDir path t, EmitShape path t p

theorem child_emission (path : LChar) (hpne : path ≠ []) (hph : path.head? ≠ some '.')
    (c : FSNode) (hwf : wfNode c = true) (hok : VisitOk c) :
    ∀ p ∈ visitNode docsInputDir (joinPath path (nodeName c)) c,
      ∃ s, SlashTail s ∧ p = path ++ '/' :: (nodeName c ++ s) ∧
        (s = [] → ¬ nodeName c = "index.html".data ∨ path = docsInputDir) := by
  have hname := wfNode_name c hwf
  have hj : joinPath path (nodeName c) = path ++ '/' :: nodeName c :=
    joinPath_eq path (nodeName c) hpne hph
  cases c with
  | file n =>
      intro p hp
      simp only [nodeName] at hj hname hp ⊢
      rw [hj] at hp
      simp only [visitNode] at hp
      by_cases hcond : (hasHtmlSuffixLower (path ++ '/' :: n)
          && (dirOf (path ++ '/' :: n) == docsInputDir
              || !(baseOf (path ++ '/' :: n) == "index.html".data))) = true
      · rw [if_pos hcond] at hp
        have hpv : p = path ++ '/' :: n := by simpa using hp
        refine ⟨[], Or.inl rfl, by simpa using hpv, ?_⟩
        intro _
        have h2 : (dirOf (path ++ '/' :: n) == docsInputDir
            || !(baseOf (path ++ '/' :: n) == "index.html".data)) = true :=
          (Bool.and_eq_true _ _ |>.mp hcond).2
        rcases Bool.or_eq_true _ _ |>.mp h2 with hb | hb
        · right
          have := beq_iff_eq.mp hb
          rwa [dirOf_append path n hph hname.2] at this
        · left
          have hb2 : (baseOf (path ++ '/' :: n) == "index.html".data) = false := by
            simpa using hb
          have := beq_eq_false_iff_ne.mp hb2
          rwa [baseOf_append path n hname.2] at this
      · rw [if_neg hcond] at hp
        simp at hp
  | dir n ch =>
      intro p hp
      simp only [nodeName] at hj hname hp ⊢
      rw [hj] at hp
      have hne2 : path ++ '/' :: n ≠ [] := by simp
      have hh2 : (path ++ '/' :: n).head? ≠ some '.' := by
        rw [head?_append_of_ne_nil path _ hpne]
        exact hph
      have hokr := hok hwf (path ++ '/' :: n) hne2 hh2
      have hshape := hokr.2 p hp
      simp only [EmitShape] at hshape
      obtain ⟨m, s0, hm, hs0, hpeq⟩ := hshape
      refine ⟨'/' :: (m ++ s0), Or.inr ⟨_, rfl⟩, ?_, by simp⟩
      rw [hpeq]
      simp

theorem visitChildren_ok (path : LChar) (hpne : path ≠ []) (hph : path.head? ≠ some '.') :
    ∀ (ch : List FSNode), wfList ch = true → (ch.map nodeName).Nodup →
      (∀ c ∈ ch, VisitOk c) →
      (visitChildren docsInputDir path ch).Nodup ∧
      ∀ p ∈ visitChildren docsInputDir path ch,
        ∃ c ∈ ch, ∃ s, SlashTail s ∧ p = path ++ '/' :: (nodeName c ++ s) ∧
          (s = [] → ¬ nodeName c = "index.html".data ∨ path = docsInputDir) := by
  intro ch
  induction ch with
  | nil =>
      intro _ _ _
      constructor
      · simp [visitChildren]
      · intro p hp
        simp [visitChildren] at hp
  | cons c cs ih =>
      intro hwf hnd hoks
      have hwfc : wfNode c = true := wfList_mem (c :: cs) hwf c (List.mem_cons_self c cs)
      have hwfcs : wfList cs = true := by
        simp only [wfList, Bool.and_eq_true] at hwf
        exact hwf.2
      have hnd2 : (∀ x ∈ cs, ¬nodeName x = nodeName c) ∧ (cs.map nodeName).Nodup := by
        simpa using hnd
      have hndcs : (cs.map nodeName).Nodup := hnd2.2
      have ihr := ih hwfcs hndcs (fun x hx => hoks x (List.mem_cons.mpr (Or.inr hx)))
      have hce := child_emission path hpne hph c hwfc (hoks c (List.mem_cons_self c cs))
      have hnamec := wfNode_name c hwfc
      have hA_nodup : (visitNode docsInputDir (joinPath path (nodeName c)) c).Nodup := by
        have hj : joinPath path (nodeName c) = path ++ '/' :: nodeName c :=
          joinPath_eq path (nodeName c) hpne hph
        rw [hj]
        refine ((hoks c (List.mem_cons_self c cs)) hwfc (path ++ '/' :: nodeName c)
          (by simp) ?_).1
        rw [head?_append_of_ne_nil path _ hpne]
        exact hph
      constructor
      · simp only [visitChildren]
        refine List.Nodup.append hA_nodup ihr.1 ?_
        intro p hpA hpB
        obtain ⟨s₁, ht1, hp1, _⟩ := hce p hpA
        obtain ⟨c2, hc2, s₂, ht2, hp2, _⟩ := ihr.2 p hpB
        have hwfc2 : wfNode c2 = true := wfList_mem cs hwfcs c2 hc2
        have hnamec2 := wfNode_name c2 hwfc2
        have heq0 : path ++ '/' :: (nodeName c ++ s₁) = path ++ '/' :: (nodeName c2 ++ s₂) :=
          hp1.symm.trans hp2
        have heq1 : nodeName c ++ s₁ = nodeName c2 ++ s₂ := by
          have h3 := List.append_cancel_left heq0
          exact (List.cons.injEq _ _ _ _ ▸ h3).2
        have hcc := comp_unique (nodeName c) (nodeName c2) s₁ s₂ hnamec.2 hnamec2.2 ht1 ht2 heq1
        exact hnd2.1 c2 hc2 hcc.1.symm
      · intro p hp
        simp only [visitChildren, List.mem_append] at hp
        rcases hp with hpA | hpB
        · obtain ⟨s₁, ht1, hp1, himp⟩ := hce p hpA
          exact ⟨c, List.mem_cons_self c cs, s₁, ht1, hp1, himp⟩
        · obtain ⟨c2, hc2, s₂, ht2, hp2, himp⟩ := ihr.2 p hpB
          exact ⟨c2, List.mem_cons.mpr (Or.inr hc2), s₂, ht2, hp2, himp⟩

theorem visit_ok : ∀ t, VisitOk t := by
  refine fsnode_induction VisitOk ?_ ?_
  · intro n _ path _ _
    constructor
    · by_cases hcond : (hasHtmlSuffixLower path
          && (dirOf path == docsInputDir || !(baseOf path == "index.html".data))) = true
      · simp [visitNode, hcond]
      · simp [visitNode, hcond]
    · intro p hp
      simp only [visitNode] at hp
      simp only [EmitShape]
      by_cases hcond : (hasHtmlSuffixLower path
          && (dirOf path == docsInputDir || !(baseOf path == "index.html".data))) = true
      · rw [if_pos hcond] at hp
        simpa using hp
      · rw [if_neg hcond] at hp
        simp at hp
  · intro n ch ihch hwf path hpne hph
    have hparts := wfNode_dir_parts n ch hwf
    have hoks : ∀ c ∈ ch, VisitOk c := fun c hc => ihch c hc
    have hvc := visitChildren_ok path hpne hph ch hparts.2 hparts.1 hoks
    have hjix : joinPath path "index.html".data = path ++ '/' :: "index.html".data :=
      joinPath_eq path _ hpne hph
    have hpathne : path ≠ docsInputDir := by
      intro hcontra
      apply hph
      rw [hcontra]
      decide
    constructor
    · simp only [visitNode]
      by_cases hix : hasIndexEntry ch = true
      · rw [if_pos hix]
        refine List.Nodup.append (by simp) hvc.1 ?_
        intro q hq1 hq2
        have hq : q = path ++ '/' :: "index.html".data := by
          rw [hjix] at hq1
          simpa using hq1
        obtain ⟨c2, hc2, s₂, ht2, hp2, himp⟩ := hvc.2 q hq2
        have hwfc2 : wfNode c2 = true := wfList_mem ch hparts.2 c2 hc2
        have hnamec2 := wfNode_name c2 hwfc2
        have heq1 : "index.html".data ++ ([] : LChar) = nodeName c2 ++ s₂ := by
          have h0 : path ++ '/' :: ("index.html".data ++ ([] : LChar))
              = path ++ '/' :: (nodeName c2 ++ s₂) := by
            rw [List.append_nil, ← hq, hp2]
          have h3 := List.append_cancel_left h0
          exact (List.cons.injEq _ _ _ _ ▸ h3).2
        have hcc := comp_unique "index.html".data (nodeName c2) [] s₂
          (by decide) hnamec2.2 (Or.inl rfl) ht2 heq1
        rcases himp hcc.2.symm with hleft | hright
        · exact hleft hcc.1.symm
        · exact hpathne hright
      · rw [if_neg hix]
        simpa using hvc.1
    · intro p hp
      simp only [visitNode, List.mem_append] at hp
      simp only [EmitShape]
      rcases hp with hpix | hpch
      · by_cases hix : hasIndexEntry ch = true
        · rw [if_pos hix] at hpix
          have hq : p = path ++ '/' :: "index.html".data := by
            rw [hjix] at hpix
            simpa using hpix
          exact ⟨"index.html".data, [], by decide, Or.inl rfl, by simpa using hq⟩
        · rw [if_neg hix] at hpix
          simp at hpix
      · obtain ⟨c2, hc2, s₂, ht2, hp2, _⟩ := hvc.2 p hpch
        have hwfc2 : wfNode c2 = true := wfList_mem ch hparts.2 c2 hc2
        have hnamec2 := wfNode_name c2 hwfc2
        exact ⟨nodeName c2, s₂, hnamec2.2, ht2, hp2⟩

-- The walk starts at the uncleaned call-site string "./docs"; every join of
-- that root with a child name is cleaned to start with "docs", so the walk of
-- a directory behaves exactly as if rooted at the clean path "docs".

theorem joinPath_dotdocs (x : LChar) :
    joinPath docsInputDir x = joinPath "docs".data x := by
  have h1 : docsInputDir ++ '/' :: x = '.' :: '/' :: ("docs".data ++ '/' :: x) := by
    rw [show docsInputDir = '.' :: '/' :: "docs".data from rfl]
    simp
  have h2 : cleanLite ('.' :: '/' :: ("docs".data ++ '/' :: x))
      = "docs".data ++ '/' :: x := by
    unfold cleanLite
    rw [if_pos (by rw [show "./".data = ['.', '/'] from rfl]; simp [List.isPrefixOf])]
    simp
  have h3 : cleanLite ("docs".data ++ '/' :: x) = "docs".data ++ '/' :: x := by
    apply cleanLite_eq_self
    rw [show "docs".data = 'd' :: "ocs".data from rfl]
    simp
  unfold joinPath
  rw [h1, h2, h3]

theorem visitChildren_dotdocs (ch : List FSNode) :
    visitChildren docsInputDir docsInputDir ch
      = visitChildren docsInputDir "docs".data ch := by
  induction ch with
  | nil => rfl
  | cons c cs ih =>
      simp only [visitChildren]
      rw [joinPath_dotdocs, ih]

theorem visitNode_dotdocs (n : LChar) (ch : List FSNode) :
    visitNode docsInputDir docsInputDir (.dir n ch)
      = visitNode docsInputDir "docs".data (.dir n ch) := by
  simp only [visitNode]
  rw [joinPath_dotdocs, visitChildren_dotdocs]

-- Claim C3: discovery never emits a document path twice.

/-- Claim C3: over every well-formed input tree (non-empty slash-free entry
names, distinct sibling names, as on a real filesystem), the ordered list
produced by findHTMLFiles with the program input root "./docs" contains no
path twice; and the root directory containing only an index document and no
other content file contributes exactly one entry, not two (the file branch
can never re-emit an index.html, because filepath.Dir of a walked file path
is a cleaned path while the baseDir string "./docs" is uncleaned, so the
dir == baseDir comparison is always false).  An index document nested under a
subdirectory is emitted only by the directory branch of its own directory,
which is a special case of the no-duplicates invariant. -/
theorem c3_discovery_no_duplicate_paths :
    (∀ t, wfNode t = true → (findHTMLFiles docsInputDir t).Nodup)
    ∧ findHTMLFiles docsInputDir (.dir "docs".data [.file "index.html".data])
        = ["docs/index.html".data] := by
  constructor
  · intro t hwf
    unfold findHTMLFiles
    cases t with
    | file n =>
        have hcond : (hasHtmlSuffixLower docsInputDir
            && (dirOf docsInputDir == docsInputDir
                || !(baseOf docsInputDir == "index.html".data))) = false := by decide
        simp [visitNode, hcond]
    | dir n ch =>
        rw [visitNode_dotdocs]
        exact ((visit_ok (.dir n ch)) hwf "docs".data (by decide) (by decide)).1
  · decide

/-- Claim C3 witness: the no-duplicates theorem applied to a concrete tree
with a root index document, a nested index document and a plain page. -/
theorem c3_discovery_no_duplicate_paths_witness :
    wfNode (.dir "docs".data
      [.file "index.html".data,
       .dir "a".data [.file "index.html".data, .file "page.html".data]]) = true
    ∧ (findHTMLFiles docsInputDir (.dir "docs".data
        [.file "index.html".data,
         .dir "a".data [.file "index.html".data, .file "page.html".data]])).Nodup :=
  ⟨by decide,
    c3_discovery_no_duplicate_paths.1
      (.dir "docs".data
        [.file "index.html".data,
         .dir "a".data [.file "index.html".data, .file "page.html".data]])
      (by decide)⟩

-- Aggregation (src/main.go lines 260-321, src/unnamed/part_001 lines 278-342).

/-- A discovered document as seen by the aggregation loops: its path and the
outcome of each fallible per-document step (ioutil.ReadFile, goquery parse,
presence of a body element, body serialization via .Html()). -/
structure HTMLDoc where
  path : LChar
  readOk : Bool
  parseOk : Bool
  hasBody : Bool
  bodyHtmlOk : Bool
  bodyHtml : LChar

/-- The table-of-contents loop: one li entry is written for every discovered
file, with its derived section name, before any document is processed. -/
def tocEntries (inputDir : LChar) (docs : List HTMLDoc) : List LChar :=
  docs.map (fun d => sectionNameOf inputDir d.path)

/-- The content loop: one chapter block (title, serialized body) is written per
document, but a document is skipped with continue when its read fails, its
parse fails, no body element is found, or body serialization fails. -/
def contentBlocks (inputDir : LChar) (docs : List HTMLDoc) : List (LChar × LChar) :=
  docs.filterMap (fun d =>
    if d.readOk = false then none
    else if d.parseOk = false then none
    else if d.hasBody = false then none
    else if d.bodyHtmlOk = false then none
    else some (sectionNameOf inputDir d.path, d.bodyHtml))

-- Claim C2: table-of-contents entries and content blocks stay in lock-step.

/-- Claim C2 evaluated at the failing input: for a single discovered document
whose read fails, the aggregated document carries one table-of-contents entry
but zero content blocks, so entries and blocks do not stay in lock-step.  The
TOC loop (src/main.go lines 261-269) iterates over all discovered files before
the content loop (lines 273-321) runs, and the content loop's continue
statements do not remove the already-written TOC entry. -/
theorem c2_toc_entry_not_removed_on_exclusion :
    (tocEntries docsInputDir
      [⟨"docs/a.html".data, false, true, true, true, []⟩]).length = 1
    ∧ (contentBlocks docsInputDir
      [⟨"docs/a.html".data, false, true, true, true, []⟩]).length = 0 := by
  constructor <;> rfl

-- Cleanup (cleanupDownloadDir, src/main.go lines 144-157, src/unnamed/part_001
-- lines 55-68) and the top-level select (src/main.go lines 159-204).

/-- A filesystem entry as seen by the cleanup walk, in walk order: its path and
whether os.Remove on it would succeed. -/
structure FileEnt where
  path : LChar
  removable : Bool
  deriving DecidableEq

/-- The temporary-artifact name convention tested by cleanupDownloadDir:
strings.HasSuffix(path, ".tmp") or strings.HasSuffix(path, ".wget"). -/
def isTmpArtifact (p : LChar) : Bool :=
  ".tmp".data.isSuffixOf p || ".wget".data.isSuffixOf p

/-- cleanupDownloadDir: filepath.Walk over the output root in walk order.  A
matching entry is removed; when os.Remove fails the callback returns the error,
which makes filepath.Walk stop immediately, leaving that entry and every entry
not yet visited in place.  Returns the entries still present and whether an
error was reported. -/
def cleanupDownloadDir : List FileEnt → List FileEnt × Bool
  | [] => ([], false)
  | f :: fs =>
      if isTmpArtifact f.path then
        if f.removable then cleanupDownloadDir fs
        else (f :: fs, true)
      else
        let r := cleanupDownloadDir fs
        (f :: r.1, r.2)

/-- The outcome of the acquisition stage as observed by the select statement in
main: the download goroutine reports nil (success) or an error, or the
interrupt channel fires first. -/
inductive AcqOutcome where
  | success
  | failure
  | interrupted

/-- What the program observably does after the select (src/main.go lines
185-204): which branches run, the exit status, and the state of the output
root.  On an error outcome it logs, runs cleanupDownloadDir (logging but not
propagating a cleanup error) and exits 1; on an interrupt it runs the same
cleanup and exits 1; on success it prints the completion message and reaches
os.Exit(0) at line 204, which terminates the process before the discovery,
sanitization, aggregation and rendering code at lines 206-372 can run, so
those stage flags are false on every path. -/
structure RunResult where
  exitCode : Nat
  cleanupRan : Bool
  cleanupErrored : Bool
  discoveryRan : Bool
  sanitizerRan : Bool
  aggregatorRan : Bool
  renderRan : Bool
  finalFiles : List FileEnt

/-- The select statement and everything the process executes after it, as a
function of the acquisition outcome and the output-root contents. -/
def mainSelect (outcome : AcqOutcome) (fs : List FileEnt) : RunResult :=
  match outcome with
  | .failure =>
      let r := cleanupDownloadDir fs
      ⟨1, true, r.2, false, false, false, false, r.1⟩
  | .interrupted =>
      let r := cleanupDownloadDir fs
      ⟨1, true, r.2, false, false, false, false, r.1⟩
  | .success => ⟨0, false, false, false, false, false, false, fs⟩

-- Claim C1: the success path and the downstream pipeline.

/-- Claim C1 evaluated at the failing input: when the acquisition outcome is
Success the process exits with status zero, but none of tree discovery,
sanitization, aggregation or rendering has run — os.Exit(0) at src/main.go
line 204 terminates the process before the pipeline code at lines 206-372,
which is unreachable on every path. -/
theorem c1_success_exits_zero_without_pipeline :
    (mainSelect .success []).exitCode = 0
    ∧ (mainSelect .success []).discoveryRan = false
    ∧ (mainSelect .success []).sanitizerRan = false
    ∧ (mainSelect .success []).aggregatorRan = false
    ∧ (mainSelect .success []).renderRan = false :=
  ⟨rfl, rfl, rfl, rfl, rfl⟩

-- Claim C6: cleanup on non-success outcomes.

theorem cleanup_removes_all_matching :
    ∀ (fs : List FileEnt), (∀ f ∈ fs, isTmpArtifact f.path = true → f.removable = true) →
      ∀ f ∈ (cleanupDownloadDir fs).1, isTmpArtifact f.path = false := by
  intro fs
  induction fs with
  | nil => intro _ f hf; simp [cleanupDownloadDir] at hf
  | cons g gs ih =>
      intro hall f hf
      by_cases hg : isTmpArtifact g.path = true
      · have hrem : g.removable = true := hall g (List.mem_cons_self g gs) hg
        rw [show cleanupDownloadDir (g :: gs) = cleanupDownloadDir gs by
          simp [cleanupDownloadDir, hg, hrem]] at hf
        exact ih (fun x hx => hall x (List.mem_cons.mpr (Or.inr hx))) f hf
      · have hg2 : isTmpArtifact g.path = false := by simpa using hg
        rw [show (cleanupDownloadDir (g :: gs)).1
            = g :: (cleanupDownloadDir gs).1 by simp [cleanupDownloadDir, hg2]] at hf
        rcases List.mem_cons.mp hf with rfl | hf2
        · exact hg2
        · exact ih (fun x hx => hall x (List.mem_cons.mpr (Or.inr hx))) f hf2

/-- Claim C6 counterexample: with outcome Failure and an output root holding
the walk sequence a.tmp (whose removal fails) then b.tmp (removable), the run
completes with both files still present: the removal failure makes the walk
callback return an error, filepath.Walk aborts, and the removable temporary
file b.tmp is never visited.  The output root therefore does not contain zero
matching files, and one failed removal does prevent removal of the rest. -/
theorem c6_counterexample_cleanup_abort :
    (mainSelect .failure
        [⟨"docs/a.tmp".data, false⟩, ⟨"docs/b.tmp".data, true⟩]).finalFiles
      = [⟨"docs/a.tmp".data, false⟩, ⟨"docs/b.tmp".data, true⟩]
    ∧ isTmpArtifact "docs/b.tmp".data = true
    ∧ (mainSelect .failure
        [⟨"docs/a.tmp".data, false⟩, ⟨"docs/b.tmp".data, true⟩]).exitCode = 1 := by
  refine ⟨?_, by decide, rfl⟩
  rfl

/-- Claim C6 amended: on every outcome other than Success the cleanup walk
runs and the process still exits with status 1 whatever cleanup reports
(cleanup errors are logged, never escalated, and never change the failure
outcome); when every removal of a matching file succeeds, the output root
holds zero files matching the temporary-artifact suffixes afterwards; but a
removal failure aborts the walk, so temporary files after the failing one may
remain. -/
theorem c6_cleanup_on_failure_amended (outcome : AcqOutcome) (fs : List FileEnt)
    (ho : outcome ≠ .success) :
    (mainSelect outcome fs).exitCode = 1
    ∧ (mainSelect outcome fs).cleanupRan = true
    ∧ ((∀ f ∈ fs, isTmpArtifact f.path = true → f.removable = true) →
        ∀ f ∈ (mainSelect outcome fs).finalFiles, isTmpArtifact f.path = false) := by
  cases outcome with
  | success => exact absurd rfl ho
  | failure =>
      refine ⟨rfl, rfl, ?_⟩
      intro hall f hf
      exact cleanup_removes_all_matching fs hall f hf
  | interrupted =>
      refine ⟨rfl, rfl, ?_⟩
      intro hall f hf
      exact cleanup_removes_all_matching fs hall f hf

/-- Claim C6 witness: the amended theorem applied to an interrupted run over a
root with one removable temporary file and one content file. -/
theorem c6_cleanup_on_failure_amended_witness :
    AcqOutcome.interrupted ≠ AcqOutcome.success
    ∧ ((mainSelect .interrupted
          [⟨"docs/a.tmp".data, true⟩, ⟨"docs/page.html".data, true⟩]).exitCode = 1
        ∧ (mainSelect .interrupted
            [⟨"docs/a.tmp".data, true⟩, ⟨"docs/page.html".data, true⟩]).cleanupRan = true
        ∧ ((∀ f ∈ ([⟨"docs/a.tmp".data, true⟩, ⟨"docs/page.html".data, true⟩] : List FileEnt),
              isTmpArtifact f.path = true → f.removable = true) →
            ∀ f ∈ (mainSelect .interrupted
                [⟨"docs/a.tmp".data, true⟩, ⟨"docs/page.html".data, true⟩]).finalFiles,
              isTmpArtifact f.path = false)) :=
  ⟨fun h => AcqOutcome.noConfusion h,
    c6_cleanup_on_failure_amended .interrupted
      [⟨"docs/a.tmp".data, true⟩, ⟨"docs/page.html".data, true⟩]
      (fun h => AcqOutcome.noConfusion h)⟩

-- Claim C9: cleanup removes only files matching the suffix convention.

/-- Claim C9: every file under the output root whose name does not end in
.tmp or .wget survives the cleanup walk untouched, whatever happens to the
other entries (including an abort caused by a failed removal, which leaves a
tail of the walk unvisited but removes nothing from it). -/
theorem c9_cleanup_preserves_nonmatching (fs : List FileEnt) (f : FileEnt)
    (hin : f ∈ fs) (hnm : isTmpArtifact f.path = false) :
    f ∈ (cleanupDownloadDir fs).1 := by
  induction fs with
  | nil => simp at hin
  | cons g gs ih =>
      by_cases hg : isTmpArtifact g.path = true
      · by_cases hrem : g.removable = true
        · rw [show cleanupDownloadDir (g :: gs) = cleanupDownloadDir gs by
            simp [cleanupDownloadDir, hg, hrem]]
          rcases List.mem_cons.mp hin with rfl | hin2
          · rw [hg] at hnm
            exact absurd hnm (by simp)
          · exact ih hin2
        · rw [show (cleanupDownloadDir (g :: gs)).1 = g :: gs by
            simp [cleanupDownloadDir, hg, hrem]]
          exact hin
      · rw [show (cleanupDownloadDir (g :: gs)).1 = g :: (cleanupDownloadDir gs).1 by
          simp [cleanupDownloadDir, hg]]
        rcases List.mem_cons.mp hin with rfl | hin2
        · exact List.mem_cons_self f _
        · exact List.mem_cons.mpr (Or.inr (ih hin2))

/-- Claim C9 witness: a content file survives a cleanup walk in which a later
temporary file is removed. -/
theorem c9_cleanup_preserves_nonmatching_witness :
    (⟨"docs/page.html".data, true⟩ : FileEnt)
        ∈ [⟨"docs/page.html".data, true⟩, (⟨"docs/a.tmp".data, true⟩ : FileEnt)]
    ∧ isTmpArtifact "docs/page.html".data = false
    ∧ (⟨"docs/page.html".data, true⟩ : FileEnt)
        ∈ (cleanupDownloadDir
            [⟨"docs/page.html".data, true⟩, ⟨"docs/a.tmp".data, true⟩]).1 :=
  ⟨by decide, by decide,
    c9_cleanup_preserves_nonmatching
      [⟨"docs/page.html".data, true⟩, ⟨"docs/a.tmp".data, true⟩]
      ⟨"docs/page.html".data, true⟩ (by decide) (by decide)⟩

-- Acquisition (downloadAndProcessDocs, src/main.go lines 66-140).

/-- The download configuration from src/main.go lines 56-64. -/
structure DownloadConfig where
  URL : LChar
  OutputDir : LChar
  MaxDepth : Int
  WaitSeconds : Int
  RateLimit : LChar
  ConvertScript : LChar
  TimeoutMinutes : Int

/-- The environment a run of downloadAndProcessDocs observes: the working
directory at entry and the success of each system call the function checks
(os.MkdirAll, os.Getwd, os.Chdir, the wget subprocess, os.Stat on the
downloaded directory, the conversion subprocess). -/
structure SysEnv where
  initialCwd : LChar
  mkdirOk : Bool
  getwdOk : Bool
  chdirOk : Bool
  wgetOk : Bool
  downloadedDirFound : Bool
  convertOk : Bool

/-- The possible results of downloadAndProcessDocs, one per return statement. -/
inductive DlResult where
  | ok
  | mkdirFailed
  | getwdFailed
  | chdirFailed
  | wgetFailed
  | downloadedDirMissing
  | convertFailed

/-- What a run of downloadAndProcessDocs leaves behind: its result, the
process working directory after it returns, and the directory each subprocess
ran in (none when it was never started). -/
structure DlOutcome where
  result : DlResult
  finalCwd : LChar
  wgetRunCwd : Option LChar
  convertRunCwd : Option LChar

/-- downloadAndProcessDocs: create the output directory, record the current
directory, change into the output directory, and from then on restore the
recorded directory on every return path via defer os.Chdir(originalDir)
(line 81).  The wget subprocess inherits the changed working directory; so
does the optional conversion subprocess, which runs only when ConvertScript is
non-empty and only after wget succeeded and the downloaded directory exists. -/
def downloadAndProcessDocs (config : DownloadConfig) (env : SysEnv) : DlOutcome :=
  if env.mkdirOk = false then ⟨.mkdirFailed, env.initialCwd, none, none⟩
  else if env.getwdOk = false then ⟨.getwdFailed, env.initialCwd, none, none⟩
  else if env.chdirOk = false then ⟨.chdirFailed, env.initialCwd, none, none⟩
  else if env.wgetOk = false then ⟨.wgetFailed, env.initialCwd, some config.OutputDir, none⟩
  else if env.downloadedDirFound = false then
    ⟨.downloadedDirMissing, env.initialCwd, some config.OutputDir, none⟩
  else if config.ConvertScript ≠ [] then
    if env.convertOk = false then
      ⟨.convertFailed, env.initialCwd, some config.OutputDir, some config.OutputDir⟩
    else ⟨.ok, env.initialCwd, some config.OutputDir, some config.OutputDir⟩
  else ⟨.ok, env.initialCwd, some config.OutputDir, none⟩

-- Claim C10: working-directory change and restoration.

/-- Claim C10: whenever the change into the output directory succeeds, the
wget subprocess is invoked with the output directory as working directory, and
on every return path from that point on (wget failure, missing downloaded
directory, conversion failure, success) the deferred chdir restores the
original working directory before downloadAndProcessDocs returns. -/
theorem c10_chdir_wget_and_restore (config : DownloadConfig) (env : SysEnv)
    (hm : env.mkdirOk = true) (hg : env.getwdOk = true) (hc : env.chdirOk = true) :
    (downloadAndProcessDocs config env).wgetRunCwd = some config.OutputDir
    ∧ (downloadAndProcessDocs config env).finalCwd = env.initialCwd := by
  unfold downloadAndProcessDocs
  rw [hm, hg, hc]
  split_ifs <;> simp_all

/-- Claim C10 witness: the theorem at the concrete configuration built in main
(src/main.go lines 163-171) with every system call succeeding. -/
theorem c10_chdir_wget_and_restore_witness :
    (⟨"/home/user".data, true, true, true, true, true, true⟩ : SysEnv).mkdirOk = true
    ∧ (⟨"/home/user".data, true, true, true, true, true, true⟩ : SysEnv).getwdOk = true
    ∧ (⟨"/home/user".data, true, true, true, true, true, true⟩ : SysEnv).chdirOk = true
    ∧ (downloadAndProcessDocs
        ⟨"https://geti2p.net/en/docs".data, "./i2p-docs".data, 3, 1, "200k".data,
          "./convert.sh".data, 30⟩
        ⟨"/home/user".data, true, true, true, true, true, true⟩).wgetRunCwd
        = some "./i2p-docs".data
    ∧ (downloadAndProcessDocs
        ⟨"https://geti2p.net/en/docs".data, "./i2p-docs".data, 3, 1, "200k".data,
          "./convert.sh".data, 30⟩
        ⟨"/home/user".data, true, true, true, true, true, true⟩).finalCwd
        = "/home/user".data :=
  ⟨rfl, rfl, rfl,
    (c10_chdir_wget_and_restore
      ⟨"https://geti2p.net/en/docs".data, "./i2p-docs".data, 3, 1, "200k".data,
        "./convert.sh".data, 30⟩
      ⟨"/home/user".data, true, true, true, true, true, true⟩ rfl rfl rfl).1,
    (c10_chdir_wget_and_restore
      ⟨"https://geti2p.net/en/docs".data, "./i2p-docs".data, 3, 1, "200k".data,
        "./convert.sh".data, 30⟩
      ⟨"/home/user".data, true, true, true, true, true, true⟩ rfl rfl rfl).2⟩

-- Document sanitizer placeholder replacement (replaceURLForPlaceholders,
-- src/unnamed/part_001 lines 164-182, applied at line 315).

/-- The single-quote character, written by code point to keep string literals
quote-free. -/
def qc : Char := Char.ofNat 39

/-- The whitespace class matched by a Go regexp backslash-s:
tab, newline, form feed, carriage return, space. -/
def isGoSpace (c : Char) : Bool :=
  c = ' ' || c = '\t' || c = '\n' || c = Char.ofNat 12 || c = '\r'

/-- Matching a literal piece of the pattern at the head of the input; returns
the rest of the input on success. -/
def litP : LChar → LChar → Option LChar
  | [], s => some s
  | _ :: _, [] => none
  | c :: cs, d :: ds => if c = d then litP cs ds else none

/-- Greedy backslash-s-star. -/
def skipWs (s : LChar) : LChar := s.dropWhile isGoSpace

/-- The capture group: the maximal run of non-quote characters, together with
the rest of the input. -/
def takeUntilQuote : LChar → LChar × LChar
  | [] => ([], [])
  | c :: cs =>
      if c = qc then ([], c :: cs)
      else
        let p := takeUntilQuote cs
        (c :: p.1, p.2)

/-- The part of the url_for pattern after the opening quote of the filename:
a non-empty capture, the closing quote, optional whitespace, a closing
parenthesis, optional whitespace and the two closing braces. -/
def phTail (r : LChar) : Option LChar :=
  let p := takeUntilQuote r
  if p.1.isEmpty then none
  else do
    let s9 ← litP [qc] p.2
    let s10 ← litP [')'] (skipWs s9)
    let _ ← litP "\x7d\x7d".data (skipWs s10)
    pure p.1

/-- One attempted match of the regular expression
two open braces, ws, url_for(, ws, quoted static, ws, comma, ws, filename,
ws, equals, ws, quote, capture, quote, ws, close parenthesis, ws, two close
braces — at the start of the input, returning the capture group (the
filename) on success.  Each whitespace star is greedy and each literal that
follows it is a non-whitespace character, so maximal munch coincides with the
regexp semantics. -/
def matchURLForAt (s : LChar) : Option LChar := do
  let s1 ← litP "\x7b\x7b".data s
  let s2 ← litP "url_for(".data (skipWs s1)
  let s3 ← litP (qc :: "static".data ++ [qc]) (skipWs s2)
  let s4 ← litP [','] (skipWs s3)
  let s5 ← litP "filename".data (skipWs s4)
  let s6 ← litP ['='] (skipWs s5)
  let s7 ← litP [qc] (skipWs s6)
  phTail s7

/-- regexp.FindStringSubmatch: the leftmost match — try each start position
from the left and return the first capture found. -/
def findURLForMatch : LChar → Option LChar
  | [] => matchURLForAt []
  | c :: cs =>
      match matchURLForAt (c :: cs) with
      | some cap => some cap
      | none => findURLForMatch cs

/-- The body of the img-tag callback of replaceURLForPlaceholders: when the
src attribute matches the pattern, it is replaced by the captured filename
(matches has length two exactly when the regexp matched, since the pattern has
one group); otherwise it is left unchanged. -/
def replaceURLForSrc (src : LChar) : LChar :=
  match findURLForMatch src with
  | some cap => cap
  | none => src

/-- replaceURLForPlaceholders over a document, modelled as the list of the src
attributes of its img elements (none for an img with no src attribute, which
the callback skips). -/
def replaceURLForPlaceholders (imgSrcs : List (Option LChar)) : List (Option LChar) :=
  imgSrcs.map (fun o => o.map replaceURLForSrc)

/-- The concrete text of the static-asset placeholder up to the opening quote
of the filename. -/
def phOpen : LChar :=
  "\x7b\x7b url_for(".data ++ qc :: "static".data ++ qc :: ", filename=".data ++ [qc]

/-- The concrete text of the placeholder after the filename. -/
def phClose : LChar := qc :: ") \x7d\x7d".data

/-- A src attribute that is exactly the placeholder with filename X. -/
def urlForPlaceholder (X : LChar) : LChar := phOpen ++ X ++ phClose

theorem matchAt_phOpen (r : LChar) : matchURLForAt (phOpen ++ r) = phTail r := rfl

theorem takeUntilQuote_append (X t : LChar) (hq : ∀ c ∈ X, c ≠ qc) :
    takeUntilQuote (X ++ qc :: t) = (X, qc :: t) := by
  induction X with
  | nil => simp [takeUntilQuote]
  | cons a X ih =>
      have ha : a ≠ qc := hq a (by simp)
      simp only [List.cons_append, takeUntilQuote, if_neg ha, List.append_eq]
      rw [ih (fun c hc => hq c (by simp [hc]))]

theorem matchAt_placeholder (X : LChar) (hne : X ≠ []) (hq : ∀ c ∈ X, c ≠ qc) :
    matchURLForAt (urlForPlaceholder X) = some X := by
  have h1 : urlForPlaceholder X = phOpen ++ (X ++ phClose) := by
    simp [urlForPlaceholder, List.append_assoc]
  rw [h1, matchAt_phOpen]
  show phTail (X ++ qc :: ") \x7d\x7d".data) = some X
  rw [phTail]
  rw [takeUntilQuote_append X _ hq]
  cases X with
  | nil => exact absurd rfl hne
  | cons a X2 => rfl

theorem findURLForMatch_of_matchAt (s cap : LChar)
    (h : matchURLForAt s = some cap) : findURLForMatch s = some cap := by
  cases s with
  | nil => simp [findURLForMatch, h]
  | cons c cs => simp [findURLForMatch, h]

-- Claim C7: the sanitizer rewrites url_for static placeholders in img src
-- attributes to the literal relative path.

/-- Claim C7: for every document and every img element whose src attribute is
exactly the static-asset placeholder with filename X (X non-empty and
quote-free, as the regexp capture class requires), the sanitized document has
that img src attribute equal to the literal relative path X. -/
theorem c7_urlfor_placeholder_replaced (srcs : List (Option LChar)) (i : Nat)
    (X : LChar) (hne : X ≠ []) (hq : ∀ c ∈ X, c ≠ qc)
    (hsrc : srcs[i]? = some (some (urlForPlaceholder X))) :
    (replaceURLForPlaceholders srcs)[i]? = some (some X) := by
  have hrep : replaceURLForSrc (urlForPlaceholder X) = X := by
    unfold replaceURLForSrc
    rw [findURLForMatch_of_matchAt _ _ (matchAt_placeholder X hne hq)]
  unfold replaceURLForPlaceholders
  rw [List.getElem?_map, hsrc]
  simp [hrep]

/-- Claim C7 witness: the replacement theorem at the concrete placeholder of
the spec scenario, with filename img/x.png. -/
theorem c7_urlfor_placeholder_replaced_witness :
    "img/x.png".data ≠ []
    ∧ (∀ c ∈ "img/x.png".data, c ≠ qc)
    ∧ ([some (urlForPlaceholder "img/x.png".data)] :
        List (Option LChar))[0]? = some (some (urlForPlaceholder "img/x.png".data))
    ∧ (replaceURLForPlaceholders
        [some (urlForPlaceholder "img/x.png".data)])[0]? = some (some "img/x.png".data) :=
  ⟨by decide, by decide, rfl,
    c7_urlfor_placeholder_replaced [some (urlForPlaceholder "img/x.png".data)] 0
      "img/x.png".data (by decide) (by decide) rfl⟩

-- Render dispatch configuration (src/main.go lines 340-356, identically
-- src/unnamed/part_001 lines 361-377).

/-- The go-wkhtmltopdf page options this program can touch.  A page created by
wkhtmltopdf.NewPage starts with every option unset (none); an option becomes
some value exactly when the code calls Set on it.  The library offers the
footer text options FooterLeft, FooterCenter and FooterRight alongside the
header options; this program never calls Set on any footer option. -/
structure PageSettings where
  enableLocalFileAccess : Option Bool
  loadErrorHandling : Option LChar
  loadMediaErrorHandling : Option LChar
  headerRight : Option LChar
  footerLeft : Option LChar
  footerCenter : Option LChar
  footerRight : Option LChar

/-- The generator-level layout options set in main. -/
structure PDFSettings where
  dpi : Option Nat
  marginBottom : Option Nat
  marginTop : Option Nat
  marginLeft : Option Nat
  marginRight : Option Nat
  portraitOrientation : Option Bool
  pageSizeA4 : Option Bool

/-- The page configuration built in main: local file access enabled, lenient
load and media error handling, and HeaderRight set to the page-number
substitution template; no footer option is ever set. -/
def configuredPage : PageSettings :=
  { enableLocalFileAccess := some true
    loadErrorHandling := some "ignore".data
    loadMediaErrorHandling := some "ignore".data
    headerRight := some "[page]/[toPage]".data
    footerLeft := none
    footerCenter := none
    footerRight := none }

/-- The generator configuration built in main: 96 DPI, 20-unit margins,
portrait orientation, A4 page size. -/
def configuredPDF : PDFSettings :=
  { dpi := some 96
    marginBottom := some 20
    marginTop := some 20
    marginLeft := some 20
    marginRight := some 20
    portraitOrientation := some true
    pageSizeA4 := some true }

/-- The page-number substitution template the program uses. -/
def pageNumberTemplate : LChar := "[page]/[toPage]".data

-- Claim C8: where the page-number template is configured.

/-- Claim C8 counterexample: the layout configuration handed to the render
sink sets no footer text at all — every footer text option is unset — so the
page-number substitution template is not configured as footer text. -/
theorem c8_counterexample_no_footer_text :
    configuredPage.footerLeft = none
    ∧ configuredPage.footerCenter = none
    ∧ configuredPage.footerRight = none :=
  ⟨rfl, rfl, rfl⟩

/-- Claim C8 amended: the page-number substitution template (current page /
total pages) is configured as the top-right header text of the output
artifact (page.HeaderRight.Set at src/main.go line 354), not as a footer. -/
theorem c8_header_right_page_numbers :
    configuredPage.headerRight = some pageNumberTemplate
    ∧ configuredPage.footerLeft = none
    ∧ configuredPage.footerCenter = none
    ∧ configuredPage.footerRight = none
    ∧ configuredPDF.dpi = some 96
    ∧ configuredPDF.pageSizeA4 = some true :=
  ⟨rfl, rfl, rfl, rfl, rfl, rfl⟩
